import Mathlib

/-!
Shallow embedding of the document chunking, embedding, storage and
similarity-retrieval pipeline of the `personal_knowledgebase_chatbot`
backend, together with proofs about its behaviour.

Modelling conventions:

* Python floats are modelled as rationals (`ℚ`); the pipeline only
  subtracts, compares and maximises scores, so the algorithms are exact
  over `ℚ`.
* SQL tables and Qdrant collections are modelled as lists of records in
  table order; `ORDER BY` is modelled as a stable sort on the order key.
* External computations (the pgvector `<=>` cosine-distance operator,
  the sentence-transformers / TF-IDF embedding models, the md5 digest,
  the LangChain text splitter, the uuid generator) are parameters of the
  functions that call them.
* Fallible external calls are modelled with `Except` / `Option` so that
  the error-handling branches of the Python code can be stated.

Source files embedded here:
`backend/app/services/postgres_vector_store.py`,
`backend/app/services/vector_store.py`,
`backend/app/services/langchain_service.py`,
`backend/app/services/embedding_service.py`.
-/

namespace PKB

/-- Dense embedding vectors (Python lists of floats) as lists of rationals. -/
abbrev Vec : Type := List ℚ

/-- One row of the `document_chunks` table, restricted to the columns the
modelled code paths read or write (`PostgresVectorStore.add_documents` /
`PostgresVectorStore.search`). -/
structure Row where
  id : ℕ
  chunk_id : String
  user_id : Option String
  text : List Char
  embedding_vector : Option Vec
  source_id : Option String
  updated_at : ℕ
  deriving DecidableEq

/-- Rows passing the SQL `WHERE` clause of `PostgresVectorStore.search`:
`user_id = :user_id AND embedding_vector IS NOT NULL` when a user filter is
supplied, and only the non-null test otherwise (lines 292-324). -/
def eligibleRows (store : List Row) (uid : Option String) : List Row :=
  match uid with
  | some u => store.filter (fun r => decide (r.user_id = some u) && r.embedding_vector.isSome)
  | none => store.filter (fun r => r.embedding_vector.isSome)

/-- Each eligible row paired with its distance
`(embedding_vector <=> :query)`; `dist` is the pgvector cosine-distance
operator, kept abstract. -/
def scoredRows (dist : Vec → Vec → ℚ) (qv : Vec) (rows : List Row) : List (Row × ℚ) :=
  rows.filterMap (fun r => r.embedding_vector.map (fun v => (r, dist v qv)))

/-- Order key of `ORDER BY embedding_vector <=> :query`: ascending distance. -/
def distLe (a b : Row × ℚ) : Prop := a.2 ≤ b.2

instance : DecidableRel distLe := fun a b => inferInstanceAs (Decidable (a.2 ≤ b.2))

instance : IsTotal (Row × ℚ) distLe := ⟨fun a b => le_total a.2 b.2⟩

instance : IsTrans (Row × ℚ) distLe := ⟨fun _ _ _ h₁ h₂ => le_trans h₁ h₂⟩

/-- The scored rows in the order produced by
`ORDER BY embedding_vector <=> :query` (a stable sort on the distance; the
SQL query orders by no other key). -/
def sqlRanked (dist : Vec → Vec → ℚ) (store : List Row) (qv : Vec) (uid : Option String) :
    List (Row × ℚ) :=
  List.insertionSort distLe (scoredRows dist qv (eligibleRows store uid))

/-- The rows actually fetched: `LIMIT :limit` with `limit = top_k`. -/
def sqlCandidates (dist : Vec → Vec → ℚ) (store : List Row) (qv : Vec) (uid : Option String)
    (k : ℕ) : List (Row × ℚ) :=
  (sqlRanked dist store qv uid).take k

/-- `relevance_threshold = 0.3` (postgres_vector_store.py line 330). -/
def relevanceThreshold : ℚ := 3 / 10

/-- The result-collection loop of `PostgresVectorStore.search`
(lines 332-376): every fetched row lands in `all_results` with
`similarity_score = 1 - row.distance`, and rows with
`similarity_score < relevance_threshold` are skipped for `results`.
Returns the pair `(results, all_results)`. -/
def searchLoop : List (Row × ℚ) → List (Row × ℚ) × List (Row × ℚ)
  | [] => ([], [])
  | (r, d) :: rest =>
    let s := 1 - d
    let p := searchLoop rest
    if s < relevanceThreshold then (p.1, (r, s) :: p.2)
    else ((r, s) :: p.1, (r, s) :: p.2)

/-- Python `max(all_results, key=lambda x: x[1])`: the first element
attaining the maximal score (later elements replace the current maximum
only on a strictly greater key). -/
def pyMaxByScore : List (Row × ℚ) → Option (Row × ℚ)
  | [] => none
  | h :: t => some (t.foldl (fun c pr => if pr.2 > c.2 then pr else c) h)

/-- Success path of `PostgresVectorStore.search` (lines 267-424): fetch the
`top_k` nearest eligible rows, keep those meeting the relevance threshold,
and if none meets it while candidates exist return the single best-scoring
candidate; with no candidates return the empty list. -/
def pgSearch (dist : Vec → Vec → ℚ) (store : List Row) (qv : Vec) (uid : Option String)
    (k : ℕ) : List (Row × ℚ) :=
  let res := searchLoop (sqlCandidates dist store qv uid k)
  if res.1.isEmpty then
    match pyMaxByScore res.2 with
    | some best => [best]
    | none => []
  else res.1

/-- The `try ... except` wrapper enclosing the whole search body, in
`PostgresVectorStore.search` (lines 429-431) and identically in
`VectorStore.search` (lines 365-367): the body either returns a result list
or raises, and every raised error is caught and replaced by `[]`. -/
def searchCaught (body : Except String (List (Row × ℚ))) : List (Row × ℚ) :=
  match body with
  | .ok results => results
  | .error _ => []

/-- A Qdrant point as written by `VectorStore.add_documents`
(vector_store.py lines 270-282): a fresh uuid id, the embedding vector, and
a payload holding text, per-document chunk index, user id and source type. -/
structure QPoint where
  pid : String
  vector : Vec
  text : List Char
  chunk_id : ℕ
  user_id : Option String
  source_type : String
  deriving DecidableEq

/-- Order key of Qdrant search results: descending similarity score. -/
def scoreGe (a b : QPoint × ℚ) : Prop := b.2 ≤ a.2

instance : DecidableRel scoreGe := fun a b => inferInstanceAs (Decidable (b.2 ≤ a.2))

instance : IsTotal (QPoint × ℚ) scoreGe := ⟨fun a b => le_total b.2 a.2⟩

instance : IsTrans (QPoint × ℚ) scoreGe := ⟨fun _ _ _ h₁ h₂ => le_trans h₂ h₁⟩

/-- Semantics of `qdrant_client.search` (external library): score every
point with the collection similarity `sim`, apply the optional `user_id`
payload filter server-side, and return the `limit` best points in
descending score order. -/
def qdrantSearch (sim : Vec → Vec → ℚ) (points : List QPoint) (qv : Vec) (flt : Option String)
    (k : ℕ) : List (QPoint × ℚ) :=
  let base : List QPoint := match flt with
    | some u => points.filter (fun p => decide (p.user_id = some u))
    | none => points
  (List.insertionSort scoreGe (base.map (fun p => (p, sim p.vector qv)))).take k

/-- `VectorStore.search` (vector_store.py lines 303-363): search with the
`user_id` filter, or, when the filtered search raises
(`filterWorks = false`), search unfiltered and re-filter the payloads in
Python (lines 339-351). -/
def vsSearch (sim : Vec → Vec → ℚ) (points : List QPoint) (qv : Vec) (flt : Option String)
    (k : ℕ) (filterWorks : Bool) : List (QPoint × ℚ) :=
  match flt with
  | none => qdrantSearch sim points qv none k
  | some u =>
    if filterWorks then qdrantSearch sim points qv (some u) k
    else (qdrantSearch sim points qv none k).filter (fun p => decide (p.1.user_id = some u))

/-- Python `text.strip()`: drop leading and trailing whitespace
(vector_store.py line 162). -/
def pyStrip (l : List Char) : List Char :=
  ((l.dropWhile Char.isWhitespace).reverse.dropWhile Char.isWhitespace).reverse

/-- Python slice `text[a:b]` on a character list (`b` may exceed the
length, as in Python). -/
def pySlice (t : List Char) (a b : ℕ) : List Char :=
  (t.drop a).take (b - a)

/-- Occurrence test: does `sub` occur in `t` at position `p`? -/
def occursAt (t sub : List Char) (p : ℕ) : Bool :=
  decide ((t.drop p).take sub.length = sub)

/-- Python `text.rfind(sub, a, b)`: the greatest `p` with `a ≤ p`,
`p + sub.length ≤ b` and an occurrence of `sub` at `p`; `none` when there
is no such `p` (Python returns `-1`). -/
def pyRfind (t sub : List Char) (a b : ℕ) : Option ℕ :=
  ((List.range b).filter
    (fun p => decide (a ≤ p) && decide (p + sub.length ≤ b) && occursAt t sub p)).max?

/-- `sentence_endings = ['.', '!', '?', '\n\n']` (line 151). -/
def sentenceEndings : List (List Char) :=
  [['.'], ['!'], ['?'], ['\n', '\n']]

/-- The `for ending in sentence_endings` loop (lines 154-158): for the
first ending whose last occurrence `pos` in the window `[a, b)` satisfies
`start < pos < e0`, the break position is `pos + len(ending)`; with no such
ending `last_break` keeps its initial value `e0` (the naive boundary). -/
def findBreak (t : List Char) (start e0 a b : ℕ) : List (List Char) → ℕ
  | [] => e0
  | sub :: rest =>
    match pyRfind t sub a b with
    | some pos =>
      if start < pos ∧ pos < e0 then pos + sub.length
      else findBreak t start e0 a b rest
    | none => findBreak t start e0 a b rest

/-- The final value of `end` in one iteration of the loop of
`VectorStore._split_text` at the default parameters
(`chunk_size = 1000`, `chunk_overlap = 200`): the naive boundary
`start + 1000`, moved back to a sentence boundary found in the last-100
character window when the naive boundary falls inside the text
(lines 141-160). -/
def splitEnd (t : List Char) (start : ℕ) : ℕ :=
  if start + 1000 < t.length then
    findBreak t start (start + 1000) (max (start + 1000 - 100) start)
      (min (start + 1000) t.length) sentenceEndings
  else start + 1000

/-- The next value of `start`: `start = end - chunk_overlap` (line 167). -/
def nextStart (t : List Char) (start : ℕ) : ℕ :=
  splitEnd t start - 200

/-- The `while start < len(text)` loop of `VectorStore._split_text` at the
default parameters: emit the stripped slice `text[start:end]` when
non-empty, then continue at `end - chunk_overlap` (lines 141-169). -/
def splitTextAux (t : List Char) (start : ℕ) : List (List Char) :=
  if start < t.length then
    (if pyStrip (pySlice t start (splitEnd t start)) = [] then []
     else [pyStrip (pySlice t start (splitEnd t start))]) ++
      splitTextAux t (nextStart t start)
  else []
termination_by t.length - start
decreasing_by
  have hrf : ∀ (sub : List Char) (a b pos : ℕ), pyRfind t sub a b = some pos → a ≤ pos := by
    intro sub a b pos hp
    have hmem := List.max?_mem (fun x y => max_choice x y) hp
    rw [List.mem_filter] at hmem
    have h2 := hmem.2
    simp only [Bool.and_eq_true, decide_eq_true_eq] at h2
    exact h2.1.1
  have hfb : ∀ (es : List (List Char)) (a b : ℕ), (∀ sub ∈ es, sub ≠ []) →
      min (a + 1) (start + 1000) ≤ findBreak t start (start + 1000) a b es := by
    intro es
    induction es with
    | nil =>
      intro a b _
      simp only [findBreak]
      omega
    | cons sub rest ih =>
      intro a b hne
      simp only [findBreak]
      cases hp : pyRfind t sub a b with
      | none => exact ih a b (fun s hs => hne s (List.mem_cons_of_mem _ hs))
      | some pos =>
        dsimp only
        by_cases hc : start < pos ∧ pos < start + 1000
        · rw [if_pos hc]
          have ha := hrf sub a b pos hp
          have hlen : 1 ≤ sub.length :=
            List.length_pos.mpr (hne sub (List.mem_cons_self _ _))
          omega
        · rw [if_neg hc]
          exact ih a b (fun s hs => hne s (List.mem_cons_of_mem _ hs))
  have hend : start + 901 ≤ splitEnd t start := by
    unfold splitEnd
    by_cases he : start + 1000 < t.length
    · rw [if_pos he]
      have hne : ∀ sub ∈ sentenceEndings, sub ≠ [] := by decide
      have := hfb sentenceEndings (max (start + 1000 - 100) start)
        (min (start + 1000) t.length) hne
      omega
    · rw [if_neg he]
      omega
  have hnext : start + 701 ≤ nextStart t start := by
    unfold nextStart
    omega
  omega

/-- `VectorStore._split_text(text)` at the default parameters: a text of at
most `chunk_size` characters is returned whole as the single chunk;
otherwise the overlapping-window loop runs from position 0
(lines 133-171). -/
def VectorStore_split_text (t : List Char) : List (List Char) :=
  if t.length ≤ 1000 then [t] else splitTextAux t 0

/-- Outcome of one call of the underlying embedding model
(`self.embedding_model.embed_query`), kept abstract: the external model
either returns a vector or raises. -/
abbrev Model : Type := List Char → Except String Vec

/-- `LangChainService` embedding dimensionality
(`self.dimensions = 384`, langchain_service.py line 33). -/
def langchainDimensions : ℕ := 384

/-- `LangChainService._get_embedding_async` (langchain_service.py lines
179-193): run the model; any exception is caught, logged, and replaced by
the zero vector `[0.0] * self.dimensions`. -/
def LangChainService_get_embedding_async (model : Model) (t : List Char) : Vec :=
  match model t with
  | .ok v => v
  | .error _ => List.replicate langchainDimensions 0

/-- A source document handed to ingestion: `page_content` plus the
metadata keys the modelled code reads (`page_id`, `source_id`). -/
structure SrcDoc where
  page_content : List Char
  page_id : Option String
  source_id : Option String
  deriving DecidableEq

/-- The chunk-level id string built by `LangChainService.process_documents`
(line 161): `page_id` defaulted to `"unknown"`, an underscore, and the
decimal chunk index. -/
def langchainChunkId (page_id : Option String) (idx : ℕ) : String :=
  page_id.getD "unknown" ++ "_" ++ Nat.repr idx

/-- A processed chunk as returned by `LangChainService.process_documents`:
the chunk text, the metadata fields the later upsert reads, the embedding
and the chunk-id string. -/
structure PChunk where
  text : List Char
  page_id : Option String
  source_id : Option String
  chunk_index : ℕ
  chunk_id : String
  embedding : Vec
  deriving DecidableEq

/-- `LangChainService.process_documents` (lines 109-173): split every
document with the LangChain `RecursiveCharacterTextSplitter` (the external
`split` parameter), embed every chunk with `_get_embedding_async`, and
collect the chunk records in order. The `try/except ... continue` around
the embedding call (lines 154-170) never drops a chunk because
`_get_embedding_async` already catches every model error itself. -/
def LangChainService_process_documents (split : List Char → List (List Char)) (model : Model)
    (docs : List SrcDoc) : List PChunk :=
  docs.flatMap (fun d =>
    (split d.page_content).mapIdx (fun idx c =>
      { text := c
        page_id := d.page_id
        source_id := d.source_id
        chunk_index := idx
        chunk_id := langchainChunkId d.page_id idx
        embedding := LangChainService_get_embedding_async model c }))

/-- The row-level `chunk_id` written by `PostgresVectorStore.add_documents`
(line 191): `page_id` defaulted to `"unknown"`, an underscore, and the
chunk record's `chunk_id` string. -/
def storedChunkId (c : PChunk) : String :=
  c.page_id.getD "unknown" ++ "_" ++ c.chunk_id

/-- The end-to-end derivation of a stored chunk id from a document's
`page_id` and a chunk position (line 161 of langchain_service.py composed
with line 191 of postgres_vector_store.py). -/
def derivedChunkId (page_id : Option String) (idx : ℕ) : String :=
  page_id.getD "unknown" ++ "_" ++ langchainChunkId page_id idx

/-- One `INSERT ... ON CONFLICT (chunk_id) DO UPDATE` statement
(lines 167-206): on a `chunk_id` collision every data column of the
existing row is overwritten (the row keeps its surrogate `id`); otherwise
a new row is appended. `now` models `datetime.utcnow()`. -/
def pgUpsertChunk (uid : Option String) (now : ℕ) (table : List Row) (c : PChunk) :
    List Row :=
  if table.any (fun r => decide (r.chunk_id = storedChunkId c)) then
    table.map (fun r =>
      if r.chunk_id = storedChunkId c then
        { id := r.id
          chunk_id := r.chunk_id
          user_id := uid
          text := c.text
          embedding_vector := some c.embedding
          source_id := c.page_id.or c.source_id
          updated_at := now }
      else r)
  else
    table ++ [{ id := table.length
                chunk_id := storedChunkId c
                user_id := uid
                text := c.text
                embedding_vector := some c.embedding
                source_id := c.page_id.or c.source_id
                updated_at := now }]

/-- The insertion loop of `PostgresVectorStore.add_documents`
(lines 146-248): upsert every processed chunk in order. -/
def pgAddChunks (uid : Option String) (now : ℕ) (table : List Row) (chunks : List PChunk) :
    List Row :=
  chunks.foldl (pgUpsertChunk uid now) table

/-- `PostgresVectorStore.add_documents` (lines 126-258): process the
documents with the LangChain service, then upsert every processed chunk. -/
def PostgresVectorStore_add_documents (split : List Char → List (List Char)) (model : Model)
    (uid : Option String) (now : ℕ) (table : List Row) (docs : List SrcDoc) : List Row :=
  pgAddChunks uid now table (LangChainService_process_documents split model docs)

/-- Qdrant `upsert` semantics for one point (external library): a stored
point with the same id is replaced, otherwise the point is appended. -/
def qdrantUpsertPoint (store : List QPoint) (p : QPoint) : List QPoint :=
  if store.any (fun q => decide (q.pid = p.pid)) then
    store.map (fun q => if q.pid = p.pid then p else q)
  else store ++ [p]

/-- `VectorStore.add_documents` (vector_store.py lines 222-297): split each
document with `_split_text`, embed the chunk texts (`embed` models the
TF-IDF `_get_embeddings`), build one `PointStruct` per chunk with a fresh
`uuid.uuid4()` id (the `uuids` parameter supplies the generated ids in
order), and upsert the points into the collection. -/
def VectorStore_add_documents (embed : List (List Char) → List Vec) (uuids : List String)
    (store : List QPoint) (docs : List SrcDoc) (source_type : String) (uid : Option String) :
    List QPoint :=
  let chunks := docs.flatMap (fun d =>
    (VectorStore_split_text d.page_content).mapIdx (fun i c => (c, i)))
  let embs := embed (chunks.map (fun c => c.1))
  let newPoints := List.zipWith
    (fun (cu : (List Char × ℕ) × String) (v : Vec) =>
      { pid := cu.2
        vector := v
        text := cu.1.1
        chunk_id := cu.1.2
        user_id := uid
        source_type := source_type })
    (chunks.zip uuids) embs
  newPoints.foldl qdrantUpsertPoint store

/-- The 16-bit values `(hash_bytes[i] << 8) + hash_bytes[i+1]` taken over
consecutive digest byte pairs, a lone final byte contributing
`hash_bytes[i] << 8` (embedding_service.py lines 62-67), each normalized to
`val / 65535 * 2 - 1`. -/
def hashVals : List ℕ → List ℚ
  | [] => []
  | [b] => [((b * 256 : ℕ) : ℚ) / 65535 * 2 - 1]
  | b₁ :: b₂ :: rest => (((b₁ * 256 + b₂ : ℕ) : ℚ) / 65535 * 2 - 1) :: hashVals rest

/-- The padding loop
`while len(embedding) < 384: embedding.extend(embedding[:min(384 - len, len)])`
(lines 70-71). On an empty value list the Python loop would never
terminate; md5 digests always have 16 bytes, so that branch is unreachable
and is modelled as the identity. -/
def padLoop (e : List ℚ) : List ℚ :=
  if 384 ≤ e.length then e
  else if e.length = 0 then e
  else padLoop (e ++ e.take (min (384 - e.length) e.length))
termination_by 384 - e.length
decreasing_by
  simp only [List.length_append, List.length_take]
  omega

/-- The hash-based embedding of one text: md5 digest bytes (the `digest`
parameter models `hashlib.md5(text.encode()).digest()`) to 16-bit values,
padded and truncated to exactly 384 entries (lines 52-74). -/
def hashEmbedding (digest : List Char → List ℕ) (t : List Char) : Vec :=
  (padLoop (hashVals (digest t))).take 384

/-- `EmbeddingService.get_embeddings` (embedding_service.py lines 30-84):
the success path never calls the loaded sentence-transformers model — it
always computes the hash-based fallback vectors ("to avoid hanging"); the
final `except` fallback to random vectors is unreachable because the hash
computation raises nothing. -/
def EmbeddingService_get_embeddings (digest : List Char → List ℕ) (texts : List (List Char)) :
    List Vec :=
  texts.map (hashEmbedding digest)

/-- Decimal digits of a natural number, most significant first: the digit
list that `Nat.toDigitsCore` accumulates, written as a structural
recursion so that it can be reasoned about directly. -/
def decDigits (n : ℕ) : List Char :=
  if n < 10 then [Nat.digitChar n]
  else decDigits (n / 10) ++ [Nat.digitChar (n % 10)]
termination_by n
decreasing_by
  exact Nat.div_lt_self (by omega) (by omega)

/-- Decimal value of a digit-character list, accumulated left to right. -/
def decValue : List Char → ℕ → ℕ
  | [], acc => acc
  | c :: cs, acc => decValue cs (acc * 10 + (c.toNat - 48))

/-- Fixture: a stored chunk row owned by tenant `A`. -/
def rowA : Row :=
  { id := 1, chunk_id := "a", user_id := some "A", text := ['a'],
    embedding_vector := some [1], source_id := none, updated_at := 1 }

/-- Fixture: a stored chunk row owned by tenant `B`. -/
def rowB : Row :=
  { id := 2, chunk_id := "b", user_id := some "B", text := ['b'],
    embedding_vector := some [1], source_id := none, updated_at := 2 }

/-- Fixture: an older chunk row of tenant `A` (earlier table position,
earlier `updated_at`). -/
def rowOld : Row :=
  { id := 3, chunk_id := "o", user_id := some "A", text := ['o'],
    embedding_vector := some [1], source_id := none, updated_at := 1 }

/-- Fixture: a more recently updated chunk row of tenant `A`, at a later
table position than `rowOld`. -/
def rowNew : Row :=
  { id := 4, chunk_id := "n", user_id := some "A", text := ['n'],
    embedding_vector := some [1], source_id := none, updated_at := 9 }

/-- Fixture: a distance operator that scores every pair at distance 0. -/
def distZero : Vec → Vec → ℚ := fun _ _ => 0

/-- Fixture: a Qdrant point owned by tenant `A`. -/
def ptA : QPoint :=
  { pid := "p1", vector := [1], text := ['a'], chunk_id := 0,
    user_id := some "A", source_type := "upload" }

/-- Fixture: a Qdrant point owned by tenant `B`. -/
def ptB : QPoint :=
  { pid := "p2", vector := [1], text := ['b'], chunk_id := 0,
    user_id := some "B", source_type := "upload" }

/-- Fixture: an embedding model that always raises. -/
def failModel : Model := fun _ => Except.error "model unavailable"

/-- Fixture: an embedding model that returns the constant vector `[1]`. -/
def okModel : Model := fun _ => Except.ok [1]

/-- Fixture: an instance of the external text splitter that returns its
input as the single chunk (what the LangChain splitter does on any short
document). -/
def splitWhole : List Char → List (List Char) := fun c => [c]

/-- Fixture: a document with no `page_id` and source id `s1`. -/
def docS1 : SrcDoc :=
  { page_content := "hello".toList, page_id := none, source_id := some "s1" }

/-- Fixture: a document with no `page_id` and source id `s2`, same content
as `docS1`. -/
def docS2 : SrcDoc :=
  { page_content := "hello".toList, page_id := none, source_id := some "s2" }

/-- Fixture: an md5-digest function returning sixteen zero bytes. -/
def digest16 : List Char → List ℕ := fun _ => List.replicate 16 0

/-- Fixture: a TF-IDF embedding function returning `[1]` for every text. -/
def embedOne : List (List Char) → List Vec := fun ts => ts.map (fun _ => [1])

theorem searchLoop_snd (l : List (Row × ℚ)) :
    (searchLoop l).2 = l.map (fun p => (p.1, 1 - p.2)) := by
  induction l with
  | nil => rfl
  | cons p rest ih =>
    obtain ⟨r, d⟩ := p
    simp only [searchLoop, List.map_cons]
    split <;> simp [ih]

theorem searchLoop_fst (l : List (Row × ℚ)) :
    (searchLoop l).1 = (searchLoop l).2.filter (fun p => decide (relevanceThreshold ≤ p.2)) := by
  induction l with
  | nil => rfl
  | cons p rest ih =>
    obtain ⟨r, d⟩ := p
    simp only [searchLoop]
    by_cases h : 1 - d < relevanceThreshold
    · rw [if_pos h]
      simp only [List.filter_cons, decide_eq_false (not_le.mpr h), ih]
      simp
    · rw [if_neg h]
      simp only [List.filter_cons, decide_eq_true (not_lt.mp h), ih]
      simp

theorem foldlMax_spec (l : List (Row × ℚ)) (h : Row × ℚ) :
    (l.foldl (fun c pr => if pr.2 > c.2 then pr else c) h = h ∨
      l.foldl (fun c pr => if pr.2 > c.2 then pr else c) h ∈ l) ∧
    h.2 ≤ (l.foldl (fun c pr => if pr.2 > c.2 then pr else c) h).2 ∧
    ∀ p ∈ l, p.2 ≤ (l.foldl (fun c pr => if pr.2 > c.2 then pr else c) h).2 := by
  induction l generalizing h with
  | nil => simp
  | cons q rest ih =>
    simp only [List.foldl_cons]
    obtain ⟨ih1, ih2, ih3⟩ := ih (if q.2 > h.2 then q else h)
    have hh : h.2 ≤ (if q.2 > h.2 then q else h).2 := by
      split
      · exact le_of_lt (by assumption)
      · exact le_refl _
    have hq : q.2 ≤ (if q.2 > h.2 then q else h).2 := by
      split
      · exact le_refl _
      · exact not_lt.mp (by assumption)
    refine ⟨?_, le_trans hh ih2, ?_⟩
    · rcases ih1 with h1 | h1
      · rw [h1]
        split
        · right
          exact List.mem_cons_self _ _
        · left
          rfl
      · right
        exact List.mem_cons_of_mem _ h1
    · intro p hp
      rcases List.mem_cons.mp hp with hp | hp
      · rw [hp]
        exact le_trans hq ih2
      · exact ih3 p hp

theorem pyMaxByScore_mem {l : List (Row × ℚ)} {m : Row × ℚ}
    (h : pyMaxByScore l = some m) : m ∈ l := by
  cases l with
  | nil => exact absurd h (by simp [pyMaxByScore])
  | cons a t =>
    simp only [pyMaxByScore, Option.some.injEq] at h
    rcases (foldlMax_spec t a).1 with h1 | h1
    · rw [← h, h1]
      exact List.mem_cons_self _ _
    · rw [← h]
      exact List.mem_cons_of_mem _ h1

theorem pyMaxByScore_spec {l : List (Row × ℚ)} (hne : l ≠ []) :
    ∃ m, pyMaxByScore l = some m ∧ m ∈ l ∧ ∀ p ∈ l, p.2 ≤ m.2 := by
  cases l with
  | nil => exact absurd rfl hne
  | cons a t =>
    obtain ⟨h1, h2, h3⟩ := foldlMax_spec t a
    refine ⟨_, rfl, pyMaxByScore_mem rfl, ?_⟩
    intro p hp
    rcases List.mem_cons.mp hp with hp | hp
    · rw [hp]
      exact h2
    · exact h3 p hp

theorem mem_scoredRows_fst {dist : Vec → Vec → ℚ} {qv : Vec} {rows : List Row} {q : Row × ℚ}
    (h : q ∈ scoredRows dist qv rows) : q.1 ∈ rows := by
  simp only [scoredRows, List.mem_filterMap] at h
  obtain ⟨r, hr, hq⟩ := h
  obtain ⟨v, _, hfv⟩ := Option.map_eq_some'.mp hq
  rw [← hfv]
  exact hr

theorem mem_sqlCandidates_scored {dist : Vec → Vec → ℚ} {store : List Row} {qv : Vec}
    {uid : Option String} {k : ℕ} {q : Row × ℚ} (h : q ∈ sqlCandidates dist store qv uid k) :
    q ∈ scoredRows dist qv (eligibleRows store uid) := by
  have h1 : q ∈ sqlRanked dist store qv uid := (List.take_sublist _ _).subset h
  exact ((List.perm_insertionSort distLe _).mem_iff).mp h1

theorem eligibleRows_user {store : List Row} {u : String} {r : Row}
    (h : r ∈ eligibleRows store (some u)) : r.user_id = some u := by
  simp only [eligibleRows, List.mem_filter, Bool.and_eq_true, decide_eq_true_eq] at h
  exact h.2.1

theorem mem_pgSearch_allResults {dist : Vec → Vec → ℚ} {store : List Row} {qv : Vec}
    {uid : Option String} {k : ℕ} {p : Row × ℚ} (h : p ∈ pgSearch dist store qv uid k) :
    p ∈ (searchLoop (sqlCandidates dist store qv uid k)).2 := by
  unfold pgSearch at h
  by_cases he : (searchLoop (sqlCandidates dist store qv uid k)).1.isEmpty
  · rw [if_pos he] at h
    cases hm : pyMaxByScore (searchLoop (sqlCandidates dist store qv uid k)).2 with
    | none => rw [hm] at h; simp at h
    | some m =>
      rw [hm] at h
      simp only [List.mem_singleton] at h
      rw [h]
      exact pyMaxByScore_mem hm
  · rw [if_neg he] at h
    rw [searchLoop_fst] at h
    exact (List.mem_filter.mp h).1

theorem mem_qdrantSearch_filtered {sim : Vec → Vec → ℚ} {points : List QPoint} {qv : Vec}
    {u : String} {k : ℕ} {p : QPoint × ℚ} (h : p ∈ qdrantSearch sim points qv (some u) k) :
    p.1.user_id = some u := by
  simp only [qdrantSearch] at h
  have h1 := (List.take_sublist _ _).subset h
  have h2 := ((List.perm_insertionSort scoreGe _).mem_iff).mp h1
  obtain ⟨pt, hpt, hp⟩ := List.mem_map.mp h2
  have h3 := (List.mem_filter.mp hpt).2
  rw [decide_eq_true_eq] at h3
  rw [← hp]
  exact h3

/-- Claim C1: tenant isolation of search — for every query, tenant `A` and
store state, each chunk returned by a search scoped to tenant `A` (in
either the PostgreSQL store or the Qdrant store, including the Python-side
fallback filter) has `user_id = A`; a chunk of another tenant is never
returned. -/
theorem tenant_isolation (dist sim : Vec → Vec → ℚ) (store : List Row) (points : List QPoint)
    (qv qw : Vec) (u : String) (k₁ k₂ : ℕ) (filterWorks : Bool) :
    (∀ p ∈ pgSearch dist store qv (some u) k₁, p.1.user_id = some u) ∧
    (∀ p ∈ vsSearch sim points qw (some u) k₂ filterWorks, p.1.user_id = some u) := by
  constructor
  · intro p hp
    have h2 := mem_pgSearch_allResults hp
    rw [searchLoop_snd] at h2
    obtain ⟨q, hq, hpq⟩ := List.mem_map.mp h2
    have h5 := eligibleRows_user (mem_scoredRows_fst (mem_sqlCandidates_scored hq))
    rw [← hpq]
    exact h5
  · intro p hp
    simp only [vsSearch] at hp
    by_cases hf : filterWorks
    · rw [if_pos hf] at hp
      exact mem_qdrantSearch_filtered hp
    · rw [if_neg hf] at hp
      have h3 := (List.mem_filter.mp hp).2
      rwa [decide_eq_true_eq] at h3

theorem pgSearch_fixture :
    pgSearch distZero [rowA, rowB] [1] (some "A") 5 = [(rowA, 1)] := by
  norm_num [pgSearch, sqlCandidates, sqlRanked, scoredRows, eligibleRows, searchLoop,
    pyMaxByScore, relevanceThreshold, distZero, rowA, rowB, distLe,
    List.insertionSort, List.orderedInsert]

/-- Witness for C1: at a concrete two-tenant store and query, the returned
chunks of a search scoped to tenant `A` belong to tenant `A`. -/
theorem tenant_isolation_witness :
    (rowA, (1 : ℚ)).1.user_id = some "A" ∧ (ptA, (0 : ℚ)).1.user_id = some "A" :=
  ⟨(tenant_isolation distZero distZero [rowA, rowB] [ptA, ptB] [1] [1] "A" 5 5 true).1
      (rowA, 1) (by simp [pgSearch_fixture]),
   (tenant_isolation distZero distZero [rowA, rowB] [ptA, ptB] [1] [1] "A" 5 5 true).2
      (ptA, 0) (by decide)⟩

/-- Claim C2: threshold-and-fallback postcondition of search — the result
set is exactly the fetched candidates scoring at least the relevance
threshold, in ranked order; when that set is empty but candidates exist,
exactly the single best-scoring candidate is returned; with zero
candidates the result is empty. -/
theorem pgSearch_threshold_and_fallback (dist : Vec → Vec → ℚ) (store : List Row) (qv : Vec)
    (uid : Option String) (k : ℕ) :
    ((searchLoop (sqlCandidates dist store qv uid k)).2 = [] →
      pgSearch dist store qv uid k = []) ∧
    ((searchLoop (sqlCandidates dist store qv uid k)).2.filter
        (fun p => decide (relevanceThreshold ≤ p.2)) ≠ [] →
      pgSearch dist store qv uid k =
        (searchLoop (sqlCandidates dist store qv uid k)).2.filter
          (fun p => decide (relevanceThreshold ≤ p.2))) ∧
    ((searchLoop (sqlCandidates dist store qv uid k)).2.filter
        (fun p => decide (relevanceThreshold ≤ p.2)) = [] →
      (searchLoop (sqlCandidates dist store qv uid k)).2 ≠ [] →
      ∃ best, pgSearch dist store qv uid k = [best] ∧
        best ∈ (searchLoop (sqlCandidates dist store qv uid k)).2 ∧
        ∀ p ∈ (searchLoop (sqlCandidates dist store qv uid k)).2, p.2 ≤ best.2) := by
  refine ⟨?_, ?_, ?_⟩
  · intro h0
    simp [pgSearch, searchLoop_fst, h0, pyMaxByScore]
  · intro hne
    simp only [pgSearch, searchLoop_fst]
    rw [if_neg (fun hc => hne (List.isEmpty_iff.mp hc))]
  · intro hk hne
    obtain ⟨m, hm, hmem, hbound⟩ := pyMaxByScore_spec hne
    refine ⟨m, ?_, hmem, hbound⟩
    simp only [pgSearch, searchLoop_fst, hk]
    simp [hm]

theorem searchKept_fixture :
    (searchLoop (sqlCandidates distZero [rowA, rowB] [1] (some "A") 5)).2.filter
      (fun p => decide (relevanceThreshold ≤ p.2)) = [(rowA, 1)] := by
  norm_num [sqlCandidates, sqlRanked, scoredRows, eligibleRows, searchLoop, relevanceThreshold,
    distZero, rowA, rowB, distLe, List.insertionSort, List.orderedInsert, List.filter_cons]

/-- Witness for C2: at a concrete store and query with one above-threshold
candidate, the search returns exactly the thresholded candidate list. -/
theorem pgSearch_threshold_and_fallback_witness :
    pgSearch distZero [rowA, rowB] [1] (some "A") 5 =
      (searchLoop (sqlCandidates distZero [rowA, rowB] [1] (some "A") 5)).2.filter
        (fun p => decide (relevanceThreshold ≤ p.2)) :=
  (pgSearch_threshold_and_fallback distZero [rowA, rowB] [1] (some "A") 5).2.1
    (by simp [searchKept_fixture])

/-- Claim C5 (amended): search never propagates a backend or embedding
error — the enclosing exception handler catches it and returns the empty
list, while a successful body result is passed through unchanged. -/
theorem search_errors_swallowed (e : String) (dist : Vec → Vec → ℚ) (store : List Row)
    (qv : Vec) (uid : Option String) (k : ℕ) :
    searchCaught (Except.error e) = [] ∧
    searchCaught (Except.ok (pgSearch dist store qv uid k)) = pgSearch dist store qv uid k :=
  ⟨rfl, rfl⟩

/-- Counterexample to C5 as stated: a failing backend read does not
propagate an error to the caller — the handler returns `[]`, the very
value a successful search over an empty store returns, so the two cases
are indistinguishable. -/
theorem search_error_returns_empty :
    searchCaught (Except.error "database unavailable") = [] ∧
    searchCaught (Except.error "database unavailable") =
      searchCaught (Except.ok (pgSearch distZero [] [1] (some "A") 5)) :=
  ⟨rfl, rfl⟩

/-- Claim C6 (amended): for every query vector, tenant and `k`, search
returns at most `k` chunks, scored by `1 - distance` in descending score
order, and the fetched candidates are the distance-smallest eligible rows;
ties between equal scores follow the table order of the sort — the query
has no `updated_at` tie-break. -/
theorem pgSearch_ranking (dist : Vec → Vec → ℚ) (store : List Row) (qv : Vec)
    (uid : Option String) (k : ℕ) :
    (pgSearch dist store qv uid k).length ≤ k ∧
    List.Pairwise (fun a b : Row × ℚ => b.2 ≤ a.2) (pgSearch dist store qv uid k) ∧
    (∀ p ∈ sqlCandidates dist store qv uid k, ∀ q ∈ (sqlRanked dist store qv uid).drop k,
      p.2 ≤ q.2) := by
  have hsorted : List.Pairwise distLe (sqlRanked dist store qv uid) :=
    List.sorted_insertionSort distLe _
  have hcand : List.Pairwise distLe (sqlCandidates dist store qv uid k) :=
    List.Pairwise.sublist (List.take_sublist _ _) hsorted
  have hall : List.Pairwise (fun a b : Row × ℚ => b.2 ≤ a.2)
      (searchLoop (sqlCandidates dist store qv uid k)).2 := by
    rw [searchLoop_snd, List.pairwise_map]
    exact hcand.imp (fun h => sub_le_sub_left h 1)
  refine ⟨?_, ?_, ?_⟩
  · by_cases he : (searchLoop (sqlCandidates dist store qv uid k)).1.isEmpty
    · simp only [pgSearch, he, if_pos]
      cases hm : pyMaxByScore (searchLoop (sqlCandidates dist store qv uid k)).2 with
      | none => simp
      | some m =>
        simp only [List.length_singleton]
        have hne2 : (searchLoop (sqlCandidates dist store qv uid k)).2 ≠ [] := by
          intro hc
          rw [hc] at hm
          exact absurd hm (by simp [pyMaxByScore])
        have hcne : sqlCandidates dist store qv uid k ≠ [] := by
          intro hc
          rw [searchLoop_snd, hc] at hne2
          exact hne2 rfl
        have hpos := List.length_pos.mpr hcne
        rw [sqlCandidates, List.length_take] at hpos
        omega
    · simp only [pgSearch, he, if_neg, Bool.false_eq_true, if_false]
      calc (searchLoop (sqlCandidates dist store qv uid k)).1.length
          ≤ (searchLoop (sqlCandidates dist store qv uid k)).2.length := by
            rw [searchLoop_fst]
            exact List.length_filter_le _ _
        _ = (sqlCandidates dist store qv uid k).length := by
            rw [searchLoop_snd, List.length_map]
        _ ≤ k := by
            rw [sqlCandidates, List.length_take]
            omega
  · by_cases he : (searchLoop (sqlCandidates dist store qv uid k)).1.isEmpty
    · simp only [pgSearch, he, if_pos]
      cases pyMaxByScore (searchLoop (sqlCandidates dist store qv uid k)).2 with
      | none => simp
      | some m => simp
    · simp only [pgSearch, he, if_neg, Bool.false_eq_true, if_false]
      rw [searchLoop_fst]
      exact List.Pairwise.filter _ hall
  · have h := hsorted
    rw [← List.take_append_drop k (sqlRanked dist store qv uid)] at h
    exact fun p hp q hq => (List.pairwise_append.mp h).2.2 p hp q hq

/-- Counterexample to C6 as stated: two tenant-`A` chunks tied at the same
similarity score come back with the *older* `updated_at` first — the SQL
query orders by distance only and has no recency tie-break. -/
theorem pgSearch_no_updated_at_tiebreak :
    pgSearch distZero [rowOld, rowNew] [1] (some "A") 5 = [(rowOld, 1), (rowNew, 1)] ∧
    rowOld.updated_at < rowNew.updated_at := by
  constructor
  · norm_num [pgSearch, sqlCandidates, sqlRanked, scoredRows, eligibleRows, searchLoop,
      pyMaxByScore, relevanceThreshold, distZero, rowOld, rowNew, distLe,
      List.insertionSort, List.orderedInsert]
  · decide

/-- Witness for C6 at a concrete store with `k = 1`: the fetched candidate
has distance no greater than the dropped row. -/
theorem pgSearch_ranking_witness :
    ((rowOld, (0 : ℚ)).2 : ℚ) ≤ (rowNew, (0 : ℚ)).2 :=
  (pgSearch_ranking distZero [rowOld, rowNew] [1] (some "A") 1).2.2
    (rowOld, 0) (by decide) (rowNew, 0) (by decide)

theorem chunkIds_pgUpsert_of_mem {uid : Option String} {now : ℕ} {table : List Row}
    {c : PChunk} (h : storedChunkId c ∈ table.map (fun r => r.chunk_id)) :
    (pgUpsertChunk uid now table c).map (fun r => r.chunk_id) =
      table.map (fun r => r.chunk_id) := by
  have hany : table.any (fun r => decide (r.chunk_id = storedChunkId c)) = true := by
    rw [List.any_eq_true]
    obtain ⟨r, hr, he⟩ := List.mem_map.mp h
    exact ⟨r, hr, by rw [decide_eq_true_eq]; exact he⟩
  unfold pgUpsertChunk
  rw [if_pos hany, List.map_map]
  apply List.map_congr_left
  intro r _
  by_cases hc : r.chunk_id = storedChunkId c
  · simp [hc]
  · simp [hc]

theorem chunkIds_pgUpsert_not_mem {uid : Option String} {now : ℕ} {table : List Row}
    {c : PChunk} (h : storedChunkId c ∉ table.map (fun r => r.chunk_id)) :
    (pgUpsertChunk uid now table c).map (fun r => r.chunk_id) =
      table.map (fun r => r.chunk_id) ++ [storedChunkId c] := by
  have hany : table.any (fun r => decide (r.chunk_id = storedChunkId c)) = false := by
    rw [List.any_eq_false]
    intro r hr hc
    rw [decide_eq_true_eq] at hc
    exact h (List.mem_map.mpr ⟨r, hr, hc⟩)
  unfold pgUpsertChunk
  rw [hany]
  simp

theorem mem_chunkIds_pgUpsert {uid : Option String} {now : ℕ} (table : List Row)
    (c : PChunk) :
    storedChunkId c ∈ (pgUpsertChunk uid now table c).map (fun r => r.chunk_id) := by
  by_cases h : storedChunkId c ∈ table.map (fun r => r.chunk_id)
  · rw [chunkIds_pgUpsert_of_mem h]
    exact h
  · rw [chunkIds_pgUpsert_not_mem h]
    simp

theorem chunkIds_pgUpsert_mono {uid : Option String} {now : ℕ} {table : List Row}
    {c : PChunk} {x : String} (h : x ∈ table.map (fun r => r.chunk_id)) :
    x ∈ (pgUpsertChunk uid now table c).map (fun r => r.chunk_id) := by
  by_cases hm : storedChunkId c ∈ table.map (fun r => r.chunk_id)
  · rw [chunkIds_pgUpsert_of_mem hm]
    exact h
  · rw [chunkIds_pgUpsert_not_mem hm]
    exact List.mem_append_left _ h

theorem chunkIds_pgAddChunks_mono {uid : Option String} {now : ℕ} {x : String} :
    ∀ (chunks : List PChunk) (table : List Row), x ∈ table.map (fun r => r.chunk_id) →
      x ∈ (pgAddChunks uid now table chunks).map (fun r => r.chunk_id) := by
  intro chunks
  induction chunks with
  | nil => intro table h; exact h
  | cons c cs ih =>
    intro table h
    exact ih (pgUpsertChunk uid now table c) (chunkIds_pgUpsert_mono h)

theorem mem_chunkIds_pgAddChunks {uid : Option String} {now : ℕ} :
    ∀ (chunks : List PChunk) (table : List Row), ∀ c ∈ chunks,
      storedChunkId c ∈ (pgAddChunks uid now table chunks).map (fun r => r.chunk_id) := by
  intro chunks
  induction chunks with
  | nil => intro table c hc; exact absurd hc (List.not_mem_nil c)
  | cons c₀ cs ih =>
    intro table c hc
    rcases List.mem_cons.mp hc with hc | hc
    · rw [hc]
      exact chunkIds_pgAddChunks_mono cs _ (mem_chunkIds_pgUpsert table c₀)
    · exact ih _ c hc

theorem chunkIds_pgAddChunks_of_all_mem {uid : Option String} {now : ℕ} :
    ∀ (chunks : List PChunk) (table : List Row),
      (∀ c ∈ chunks, storedChunkId c ∈ table.map (fun r => r.chunk_id)) →
      (pgAddChunks uid now table chunks).map (fun r => r.chunk_id) =
        table.map (fun r => r.chunk_id) := by
  intro chunks
  induction chunks with
  | nil => intro table _; rfl
  | cons c cs ih =>
    intro table hall
    have h0 := @chunkIds_pgUpsert_of_mem uid now table c
      (hall c (List.mem_cons_self _ _))
    have h1 : ∀ c₁ ∈ cs, storedChunkId c₁ ∈
        (pgUpsertChunk uid now table c).map (fun r => r.chunk_id) := by
      intro c₁ hc₁
      rw [h0]
      exact hall c₁ (List.mem_cons_of_mem _ hc₁)
    calc (pgAddChunks uid now (pgUpsertChunk uid now table c) cs).map (fun r => r.chunk_id)
        = (pgUpsertChunk uid now table c).map (fun r => r.chunk_id) := ih _ h1
      _ = table.map (fun r => r.chunk_id) := h0

/-- Claim C3 (amended, PostgreSQL store): re-ingesting the same documents
leaves the table with the same `chunk_id` list and the same row count —
each colliding `chunk_id` is replaced in place, never duplicated. (The
claim fails for the Qdrant store, which assigns a fresh uuid per point on
every ingestion; see the counterexample.) -/
theorem pg_add_documents_idempotent (split : List Char → List (List Char)) (model : Model)
    (uid : Option String) (now₁ now₂ : ℕ) (table : List Row) (docs : List SrcDoc) :
    (PostgresVectorStore_add_documents split model uid now₂
        (PostgresVectorStore_add_documents split model uid now₁ table docs) docs).map
        (fun r => r.chunk_id) =
      (PostgresVectorStore_add_documents split model uid now₁ table docs).map
        (fun r => r.chunk_id) ∧
    (PostgresVectorStore_add_documents split model uid now₂
        (PostgresVectorStore_add_documents split model uid now₁ table docs) docs).length =
      (PostgresVectorStore_add_documents split model uid now₁ table docs).length := by
  have hall : ∀ c ∈ LangChainService_process_documents split model docs,
      storedChunkId c ∈ (PostgresVectorStore_add_documents split model uid now₁
        table docs).map (fun r => r.chunk_id) :=
    fun c hc => mem_chunkIds_pgAddChunks _ _ c hc
  have h1 := @chunkIds_pgAddChunks_of_all_mem uid now₂ _ _ hall
  refine ⟨h1, ?_⟩
  have h2 := congrArg List.length h1
  simpa using h2

/-- Counterexample to C3 as stated: in the Qdrant store, ingesting the
same single-chunk document twice doubles the point count — every ingestion
draws fresh uuids, so nothing is replaced. -/
theorem qdrant_reingest_duplicates :
    (VectorStore_add_documents embedOne ["u2"]
        (VectorStore_add_documents embedOne ["u1"] [] [docS1] "upload" (some "A"))
        [docS1] "upload" (some "A")).length = 2 ∧
    (VectorStore_add_documents embedOne ["u1"] [] [docS1] "upload" (some "A")).length = 1 := by
  constructor <;> rfl

theorem mem_process_documents {split : List Char → List (List Char)} {model : Model}
    {docs : List SrcDoc} {c : PChunk}
    (h : c ∈ LangChainService_process_documents split model docs) :
    ∃ d ∈ docs, ∃ (chunk : List Char),
      c.embedding = LangChainService_get_embedding_async model chunk ∧
      c.page_id = d.page_id := by
  simp only [LangChainService_process_documents, List.mem_flatMap] at h
  obtain ⟨d, hd, hc⟩ := h
  rw [List.mapIdx_eq_enum_map] at hc
  obtain ⟨⟨idx, chunk⟩, _, hfc⟩ := List.mem_map.mp hc
  refine ⟨d, hd, chunk, ?_, ?_⟩
  · rw [← hfc]
    rfl
  · rw [← hfc]
    rfl

theorem mem_pgUpsert_rows {uid : Option String} {now : ℕ} {table : List Row} {c : PChunk}
    {r : Row} (h : r ∈ pgUpsertChunk uid now table c) :
    r ∈ table ∨ r.embedding_vector = some c.embedding := by
  unfold pgUpsertChunk at h
  by_cases hany : table.any (fun r => decide (r.chunk_id = storedChunkId c)) = true
  · rw [if_pos hany] at h
    obtain ⟨r₀, hr₀, hur⟩ := List.mem_map.mp h
    by_cases hc : r₀.chunk_id = storedChunkId c
    · rw [if_pos hc] at hur
      right
      rw [← hur]
    · rw [if_neg hc] at hur
      left
      rw [← hur]
      exact hr₀
  · rw [if_neg hany] at h
    rcases List.mem_append.mp h with h | h
    · left
      exact h
    · right
      rw [List.mem_singleton.mp h]

theorem pgAddChunks_rows_dim {uid : Option String} {now : ℕ} :
    ∀ (chunks : List PChunk), (∀ c ∈ chunks, c.embedding.length = 384) →
      ∀ (table : List Row), ∀ r ∈ pgAddChunks uid now table chunks,
        r ∈ table ∨ ∃ v, r.embedding_vector = some v ∧ v.length = 384 := by
  intro chunks
  induction chunks with
  | nil => intro _ table r hr; exact Or.inl hr
  | cons c cs ih =>
    intro hP table r hr
    rcases ih (fun c₁ h₁ => hP c₁ (List.mem_cons_of_mem _ h₁)) _ r hr with h | h
    · rcases mem_pgUpsert_rows h with h2 | h2
      · exact Or.inl h2
      · exact Or.inr ⟨c.embedding, h2, hP c (List.mem_cons_self _ _)⟩
    · exact Or.inr h

/-- Claim C7 (amended): every chunk processed and persisted by ingestion
carries an embedding of exactly 384 entries — but a chunk whose embedding
computation fails is not dropped: the embedder substitutes the 384-entry
zero vector and the chunk is stored with it (see the counterexample). -/
theorem embedding_dim_invariant (split : List Char → List (List Char)) (model : Model)
    (docs : List SrcDoc) (uid : Option String) (now : ℕ) (table : List Row)
    (hm : ∀ t v, model t = Except.ok v → v.length = 384) :
    (∀ c ∈ LangChainService_process_documents split model docs, c.embedding.length = 384) ∧
    (∀ r ∈ PostgresVectorStore_add_documents split model uid now table docs,
      r ∈ table ∨ ∃ v, r.embedding_vector = some v ∧ v.length = 384) := by
  have hemb : ∀ t, (LangChainService_get_embedding_async model t).length = 384 := by
    intro t
    unfold LangChainService_get_embedding_async
    cases hmt : model t with
    | ok v => exact hm t v hmt
    | error e =>
      show (List.replicate langchainDimensions (0 : ℚ)).length = 384
      rw [List.length_replicate]
      rfl
  have hdim : ∀ c ∈ LangChainService_process_documents split model docs,
      c.embedding.length = 384 := by
    intro c hc
    obtain ⟨d, _, chunk, he, _⟩ := mem_process_documents hc
    rw [he]
    exact hemb chunk
  exact ⟨hdim, pgAddChunks_rows_dim _ hdim table⟩

set_option maxRecDepth 4000 in
/-- Counterexample to C7 as stated: ingesting a document whose embedding
call fails stores the chunk anyway, with a 384-entry zero vector — it is
not dropped from the batch. -/
theorem failed_embedding_chunk_stored :
    (PostgresVectorStore_add_documents splitWhole failModel (some "u") 7 [] [docS1]).map
      (fun r => r.embedding_vector) = [some (List.replicate 384 0)] := by
  rfl

set_option maxRecDepth 4000 in
/-- Witness for C7: the concrete processed chunk of a document under a
failing model has a 384-entry embedding. -/
theorem embedding_dim_invariant_witness :
    ({ text := "hello".toList, page_id := none, source_id := some "s1", chunk_index := 0,
       chunk_id := "unknown_0", embedding := List.replicate 384 0 } : PChunk).embedding.length
      = 384 :=
  (embedding_dim_invariant splitWhole failModel [docS1] none 0 []
      (fun t v h => by simp [failModel] at h)).1 _ (by decide)

theorem hashVals_ne_nil {bytes : List ℕ} (h : bytes ≠ []) : hashVals bytes ≠ [] := by
  rcases bytes with _ | ⟨b, _ | ⟨b₂, rest⟩⟩
  · exact absurd rfl h
  · simp [hashVals]
  · simp [hashVals]

theorem padLoop_length_aux :
    ∀ (m : ℕ) (e : List ℚ), 384 - e.length ≤ m → e ≠ [] → 384 ≤ (padLoop e).length := by
  intro m
  induction m with
  | zero =>
    intro e h he
    rw [padLoop, if_pos (by omega)]
    omega
  | succ m ih =>
    intro e h he
    rw [padLoop]
    by_cases h1 : 384 ≤ e.length
    · rw [if_pos h1]
      exact h1
    · rw [if_neg h1]
      have h2 : e.length ≠ 0 := fun hc => he (List.length_eq_zero.mp hc)
      rw [if_neg h2]
      apply ih
      · simp only [List.length_append, List.length_take]
        omega
      · intro hc
        have h3 := congrArg List.length hc
        simp only [List.length_append, List.length_take, List.length_nil] at h3
        omega

theorem padLoop_ge (e : List ℚ) (h : e ≠ []) : 384 ≤ (padLoop e).length :=
  padLoop_length_aux (384 - e.length) e le_rfl h

/-- Claim C4 (amended): the embedder never fails loudly — on a model error
`_get_embedding_async` silently substitutes the 384-entry zero vector, and
`EmbeddingService.get_embeddings` always returns hash-derived 384-entry
vectors computed without consulting the loaded model. -/
theorem embedder_silent_fallback (model : Model) (t : List Char) (e : String)
    (digest : List Char → List ℕ) (texts : List (List Char))
    (hm : model t = Except.error e) (hd : ∀ s, digest s ≠ []) :
    LangChainService_get_embedding_async model t = List.replicate 384 0 ∧
    ∀ v ∈ EmbeddingService_get_embeddings digest texts, v.length = 384 := by
  constructor
  · unfold LangChainService_get_embedding_async
    rw [hm]
    rfl
  · intro v hv
    simp only [EmbeddingService_get_embeddings, List.mem_map] at hv
    obtain ⟨s, _, hvs⟩ := hv
    rw [← hvs]
    unfold hashEmbedding
    rw [List.length_take]
    have h1 : hashVals (digest s) ≠ [] := hashVals_ne_nil (hd s)
    have h2 := padLoop_ge _ h1
    omega

/-- Counterexample to C4 as stated: the model fails on this input and
returns no vector at all, yet the embedder raises nothing and hands back a
substituted 384-entry zero vector. -/
theorem embedder_fallback_counterexample :
    failModel ['h'] = Except.error "model unavailable" ∧
    LangChainService_get_embedding_async failModel ['h'] = List.replicate 384 0 :=
  ⟨rfl, rfl⟩

/-- Witness for C4 with a concrete failing model and a concrete digest. -/
theorem embedder_silent_fallback_witness :
    LangChainService_get_embedding_async failModel ['a'] = List.replicate 384 0 ∧
    ∀ v ∈ EmbeddingService_get_embeddings digest16 [['a']], v.length = 384 :=
  embedder_silent_fallback failModel ['a'] "model unavailable" digest16 [['a']] rfl
    (fun _ => (by decide : List.replicate 16 (0 : ℕ) ≠ []))

theorem toDigitsCore_eq_decDigits :
    ∀ (fuel n : ℕ) (ds : List Char), n < fuel →
      Nat.toDigitsCore 10 fuel n ds = decDigits n ++ ds := by
  intro fuel
  induction fuel with
  | zero => intro n ds h; omega
  | succ f ih =>
    intro n ds h
    simp only [Nat.toDigitsCore]
    by_cases h0 : n / 10 = 0
    · rw [if_pos h0]
      have hn : n < 10 := (Nat.div_eq_zero_iff (by norm_num)).mp h0
      rw [decDigits, if_pos hn, Nat.mod_eq_of_lt hn]
      rfl
    · rw [if_neg h0]
      have hn : ¬ n < 10 := fun hc => h0 ((Nat.div_eq_zero_iff (by norm_num)).mpr hc)
      have hlt : n / 10 < f := by
        have := Nat.div_lt_self (by omega : 0 < n) (by norm_num : 1 < 10)
        omega
      rw [ih (n / 10) (Nat.digitChar (n % 10) :: ds) hlt]
      conv_rhs => rw [decDigits, if_neg hn]
      simp [List.append_assoc]

theorem decValue_append (xs : List Char) :
    ∀ (ys : List Char) (acc : ℕ), decValue (xs ++ ys) acc = decValue ys (decValue xs acc) := by
  induction xs with
  | nil => intro ys acc; rfl
  | cons c cs ih => intro ys acc; exact ih ys (acc * 10 + (c.toNat - 48))

theorem digitChar_decode : ∀ n : ℕ, n < 10 → (Nat.digitChar n).toNat - 48 = n := by decide

theorem decValue_decDigits_aux :
    ∀ (m n acc : ℕ), n ≤ m → decValue (decDigits n) acc = acc * 10 ^ (decDigits n).length + n := by
  intro m
  induction m with
  | zero =>
    intro n acc hn
    have h0 : n = 0 := by omega
    subst h0
    rw [decDigits, if_pos (by norm_num)]
    simp only [decValue, List.length_singleton, digitChar_decode 0 (by norm_num), pow_one]
  | succ m ih =>
    intro n acc hn
    by_cases h : n < 10
    · rw [decDigits, if_pos h]
      simp only [decValue, List.length_singleton, digitChar_decode n h, pow_one]
    · rw [decDigits, if_neg h]
      rw [decValue_append]
      have hd : n / 10 < n := Nat.div_lt_self (by omega) (by norm_num)
      rw [ih (n / 10) acc (by omega)]
      simp only [decValue, List.length_append, List.length_singleton]
      rw [digitChar_decode (n % 10) (Nat.mod_lt n (by norm_num))]
      rw [pow_succ, ← mul_assoc]
      generalize acc * 10 ^ (decDigits (n / 10)).length = Q
      omega

theorem decValue_decDigits (n acc : ℕ) :
    decValue (decDigits n) acc = acc * 10 ^ (decDigits n).length + n :=
  decValue_decDigits_aux n n acc le_rfl

theorem decDigits_inj {m n : ℕ} (h : decDigits m = decDigits n) : m = n := by
  have hm := decValue_decDigits m 0
  have hn := decValue_decDigits n 0
  rw [h] at hm
  simp only [zero_mul, zero_add] at hm hn
  rw [hm] at hn
  exact hn

theorem toDigits_inj {m n : ℕ} (h : Nat.toDigits 10 m = Nat.toDigits 10 n) : m = n := by
  rw [Nat.toDigits, Nat.toDigits] at h
  rw [toDigitsCore_eq_decDigits (m + 1) m [] (by omega),
    toDigitsCore_eq_decDigits (n + 1) n [] (by omega)] at h
  simp only [List.append_nil] at h
  exact decDigits_inj h

theorem natRepr_data_inj {m n : ℕ} (h : (Nat.repr m).data = (Nat.repr n).data) : m = n :=
  toDigits_inj h

/-- Claim C8 (amended): the stored chunk id is derived from the document's
`page_id` (defaulted to `"unknown"`) and the chunk position only — chunks
of the same document at distinct positions always receive distinct ids,
but the id does not depend on `source_id`: two documents without a
`page_id` and with the same content produce identical stored chunk ids
however their `source_id`s differ. -/
theorem chunk_id_derivation (pid : Option String) (i j : ℕ)
    (split : List Char → List (List Char)) (model : Model) (d₁ d₂ : SrcDoc)
    (hij : i ≠ j) (h₁ : d₁.page_id = none) (h₂ : d₂.page_id = none)
    (hc : d₁.page_content = d₂.page_content) :
    derivedChunkId pid i ≠ derivedChunkId pid j ∧
    (LangChainService_process_documents split model [d₁]).map storedChunkId =
      (LangChainService_process_documents split model [d₂]).map storedChunkId := by
  constructor
  · intro h
    apply hij
    unfold derivedChunkId langchainChunkId at h
    have hd := congrArg String.data h
    simp only [String.data_append, List.append_assoc] at hd
    have h1 := List.append_cancel_left hd
    have h2 := List.append_cancel_left h1
    have h3 := List.append_cancel_left h2
    have h4 := List.append_cancel_left h3
    exact natRepr_data_inj h4
  · simp only [LangChainService_process_documents, List.flatMap_cons, List.flatMap_nil,
      List.append_nil, hc]
    rw [List.mapIdx_eq_enum_map, List.mapIdx_eq_enum_map, List.map_map, List.map_map]
    apply List.map_congr_left
    intro a _
    simp [storedChunkId, langchainChunkId, h₁, h₂, Function.uncurry]

/-- Counterexample to C8 as stated: two documents with distinct source
identifiers `s1` and `s2` and no `page_id` receive the identical stored
chunk id `"unknown_unknown_0"` for their first chunk. -/
theorem chunk_id_collision :
    (LangChainService_process_documents splitWhole okModel [docS1]).map storedChunkId =
      ["unknown_unknown_0"] ∧
    (LangChainService_process_documents splitWhole okModel [docS2]).map storedChunkId =
      ["unknown_unknown_0"] ∧
    docS1.source_id ≠ docS2.source_id := by
  refine ⟨?_, ?_, ?_⟩ <;> decide

/-- Witness for C8 at concrete positions and concrete documents. -/
theorem chunk_id_derivation_witness :
    derivedChunkId (some "p") 0 ≠ derivedChunkId (some "p") 1 ∧
    (LangChainService_process_documents splitWhole okModel [docS1]).map storedChunkId =
      (LangChainService_process_documents splitWhole okModel [docS2]).map storedChunkId :=
  chunk_id_derivation (some "p") 0 1 splitWhole okModel docS1 docS2 (by decide) rfl rfl rfl

/-- Claim C9: chunker degenerate case — any input whose length is at most
the default chunk size (1000) is returned whole as the single segment. -/
theorem split_text_degenerate (t : List Char) (h : t.length ≤ 1000) :
    VectorStore_split_text t = [t] := by
  unfold VectorStore_split_text
  rw [if_pos h]

/-- Witness for C9 on a concrete two-character text. -/
theorem split_text_degenerate_witness :
    VectorStore_split_text ['h', 'i'] = [['h', 'i']] :=
  split_text_degenerate ['h', 'i'] (by decide)

theorem pyRfind_ge {t sub : List Char} {a b pos : ℕ} (h : pyRfind t sub a b = some pos) :
    a ≤ pos := by
  have hmem := List.max?_mem (fun x y => max_choice x y) h
  rw [List.mem_filter] at hmem
  have h2 := hmem.2
  simp only [Bool.and_eq_true, decide_eq_true_eq] at h2
  exact h2.1.1

theorem findBreak_ge (t : List Char) (start : ℕ) (es : List (List Char))
    (hne : ∀ sub ∈ es, sub ≠ []) :
    ∀ (a b : ℕ), min (a + 1) (start + 1000) ≤ findBreak t start (start + 1000) a b es := by
  induction es with
  | nil =>
    intro a b
    simp only [findBreak]
    omega
  | cons sub rest ih =>
    intro a b
    simp only [findBreak]
    cases hp : pyRfind t sub a b with
    | none => exact ih (fun s hs => hne s (List.mem_cons_of_mem _ hs)) a b
    | some pos =>
      dsimp only
      by_cases hc : start < pos ∧ pos < start + 1000
      · rw [if_pos hc]
        have ha := pyRfind_ge hp
        have hlen : 1 ≤ sub.length :=
          List.length_pos.mpr (hne sub (List.mem_cons_self _ _))
        omega
      · rw [if_neg hc]
        exact ih (fun s hs => hne s (List.mem_cons_of_mem _ hs)) a b

theorem splitEnd_ge (t : List Char) (start : ℕ) : start + 901 ≤ splitEnd t start := by
  unfold splitEnd
  by_cases he : start + 1000 < t.length
  · rw [if_pos he]
    have hne : ∀ sub ∈ sentenceEndings, sub ≠ [] := by decide
    have := findBreak_ge t start sentenceEndings hne (max (start + 1000 - 100) start)
      (min (start + 1000) t.length)
    omega
  · rw [if_neg he]
    omega

/-- Claim C10: totality of the custom splitter at its default parameters —
every loop iteration advances `start` by at least
`chunk_size - 100 - chunk_overlap = 700` characters, so the loop
terminates, producing a finite list of at most one chunk per remaining
character. -/
theorem split_text_total (t : List Char) (start : ℕ) :
    start + 700 ≤ nextStart t start ∧ (splitTextAux t start).length ≤ t.length - start := by
  constructor
  · have := splitEnd_ge t start
    unfold nextStart
    omega
  · have H : ∀ (m s : ℕ), t.length - s ≤ m → (splitTextAux t s).length ≤ t.length - s := by
      intro m
      induction m with
      | zero =>
        intro s hs
        rw [splitTextAux, if_neg (by omega)]
        simp
      | succ m ih =>
        intro s hs
        rw [splitTextAux]
        by_cases h : s < t.length
        · rw [if_pos h]
          have hnext : s + 701 ≤ nextStart t s := by
            have := splitEnd_ge t s
            unfold nextStart
            omega
          have hrec := ih (nextStart t s) (by omega)
          rw [List.length_append]
          have hfirst : (if pyStrip (pySlice t s (splitEnd t s)) = []
              then ([] : List (List Char))
              else [pyStrip (pySlice t s (splitEnd t s))]).length ≤ 1 := by
            split <;> simp
          omega
        · rw [if_neg h]
          simp
    exact H (t.length - start) start le_rfl

end PKB
